import Mathlib

/-!
Verification of the text-layout / pagination engine of the M5Paper S3 e-book
reader (src/EReader_S3/EReader_S3.ino, v2).

The source is embedded shallowly:
* the raw book buffer `uint8_t *textFile` becomes a function `doc : Nat → Nat`
  giving the byte at each offset, together with an explicit length;
* the external pixel-width capability `M5.Display.textWidth` becomes a
  parameter `width : List Nat → Nat` over normalized character-code lists
  (Arduino `String` values are modelled as `List Nat` of character codes);
* the C `int` sentinel `-1` of `textIndexOfSpaceCR` becomes `Option Nat`;
* loops become fuel-indexed recursions returning `none` on fuel exhaustion,
  so that termination of the source loops is a provable statement;
* the measurement loop `getNextPage` and the render loop `displayPage` carry
  a ghost log recording the cursor x position at each wrap decision (and, for
  the measurement loop, whether the wrapped token started with CR).  The log
  does not influence any computed value; it only makes the wrap decisions of
  the two passes statable.
-/

/-- Screen width in pixels (source: `const int SCREEN_WIDTH = 540`). -/
def SCREEN_WIDTH : Nat := 540

/-- Screen height in pixels (source: `const int SCREEN_HEIGHT = 960`). -/
def SCREEN_HEIGHT : Nat := 960

/-- Page margin in pixels (source: `int border = 10`). -/
def border : Nat := 10

/-- A page table entry: a byte range into the document
(source: `struct aPage { uint32_t start; uint32_t end; }`). -/
structure aPage where
  start : Nat
  «end» : Nat
  deriving DecidableEq, Repr

/-- Third-byte dispatch of the `E2 80 xx` switch in `textSubstring`:
`0x98/0x99/0xB2 → apostrophe`, `0x9C/0x9D → quote`, `0x94 → dash`,
`0xA6 → three dots`, `0xA2 → asterisk`, otherwise no match
(fall through to the later checks).  Character codes are used:
39 = apostrophe, 34 = double quote, 45 = dash, 46 = dot, 42 = asterisk. -/
def sub3 (b3 : Nat) : Option (List Nat) :=
  if b3 = 152 ∨ b3 = 153 ∨ b3 = 178 then some [39]
  else if b3 = 156 ∨ b3 = 157 then some [34]
  else if b3 = 148 then some [45]
  else if b3 = 166 then some [46, 46, 46]
  else if b3 = 162 then some [42]
  else none

/-- Single-byte Windows-1252 switch of `textSubstring`:
`0x91/0x92 → apostrophe`, `0x93/0x94 → quote`, `0x97 → dash`,
`0x85 → three dots`, `0x95 → asterisk`, `0xA9 → "(c)"` (codes 40, 99, 41),
otherwise no match (the byte passes through raw). -/
def sub1 (b : Nat) : Option (List Nat) :=
  if b = 145 ∨ b = 146 then some [39]
  else if b = 147 ∨ b = 148 then some [34]
  else if b = 151 then some [45]
  else if b = 133 then some [46, 46, 46]
  else if b = 149 then some [42]
  else if b = 169 then some [40, 99, 41]
  else none

/-- Body of `String textSubstring(uint8_t*, int startPtr, int endPtr)`,
indexed by fuel so that the kernel can evaluate it (each step consumes at
least one byte, so `endPtr - startPtr` units of fuel are always enough;
fuel exhaustion returns the partial result `[]`, which the wrapper rules
out by construction).
The loop scans bytes of `[startPtr, endPtr)`; it first tries the 3-byte
`E2 80 xx` sequences (guarded by `i + 2 < endPtr`), then the 2-byte `C2 A9`
copyright sequence (guarded by `i + 1 < endPtr`), then the single-byte
Windows-1252 switch, and otherwise appends the raw byte (including CR and
LF). -/
def textSubstringAux (doc : Nat → Nat) (startPtr endPtr : Nat) : Nat → List Nat
  | 0 => []
  | fuel + 1 =>
    if startPtr < endPtr then
      match (if doc startPtr = 226 ∧ startPtr + 2 < endPtr ∧ doc (startPtr + 1) = 128 then
              sub3 (doc (startPtr + 2)) else none) with
      | some rep => rep ++ textSubstringAux doc (startPtr + 3) endPtr fuel
      | none =>
        if doc startPtr = 194 ∧ startPtr + 1 < endPtr ∧ doc (startPtr + 1) = 169 then
          [40, 99, 41] ++ textSubstringAux doc (startPtr + 2) endPtr fuel
        else
          match sub1 (doc startPtr) with
          | some rep => rep ++ textSubstringAux doc (startPtr + 1) endPtr fuel
          | none => doc startPtr :: textSubstringAux doc (startPtr + 1) endPtr fuel
    else []

/-- Embedding of `String textSubstring(uint8_t*, int startPtr, int endPtr)`. -/
def textSubstring (doc : Nat → Nat) (startPtr endPtr : Nat) : List Nat :=
  textSubstringAux doc startPtr endPtr (endPtr - startPtr)

/-- Whether the byte pattern `pat` occurs at offset `i`, entirely inside the
range `[_, e)`.  Used only by the specification-side normalizer. -/
def matchesAt : List Nat → (Nat → Nat) → Nat → Nat → Bool
  | [], _, _, _ => true
  | b :: rest, doc, i, e => (decide (i < e) && (doc i == b)) && matchesAt rest doc (i + 1) e

/-- Modelled from the spec: the declarative substitution table of §4.1 /
claim C5, in the priority order the spec prescribes (3-byte sequences first,
then the 2-byte copyright sequence, then the single-byte entries).
Each entry maps a byte pattern to its replacement character codes. -/
def subTable : List (List Nat × List Nat) :=
  [([226, 128, 152], [39]), ([226, 128, 153], [39]), ([226, 128, 178], [39]),
   ([226, 128, 156], [34]), ([226, 128, 157], [34]),
   ([226, 128, 148], [45]),
   ([226, 128, 166], [46, 46, 46]),
   ([226, 128, 162], [42]),
   ([194, 169], [40, 99, 41]),
   ([145], [39]), ([146], [39]),
   ([147], [34]), ([148], [34]),
   ([151], [45]),
   ([133], [46, 46, 46]),
   ([149], [42]),
   ([169], [40, 99, 41])]

/-- First table entry whose pattern matches at `i` (specification side);
returns the replacement and the number of matched bytes. -/
def lookupSub (doc : Nat → Nat) (i e : Nat) : List (List Nat × List Nat) → Option (List Nat × Nat)
  | [] => none
  | (pat, rep) :: rest =>
    if matchesAt pat doc i e then some (rep, pat.length) else lookupSub doc i e rest

/-- Modelled from the spec: the ByteNormalizer contract of §4.1 / claim C5 —
at each position try the substitution table in priority order; on a match
append the replacement and advance past all matched bytes; otherwise pass the
byte through unchanged as a single character. -/
def normalizeSpec (doc : Nat → Nat) (i e : Nat) : List Nat :=
  if _h : i < e then
    match hq : lookupSub doc i e subTable with
    | some q => q.1 ++ normalizeSpec doc (i + q.2) e
    | none => doc i :: normalizeSpec doc (i + 1) e
  else []
termination_by e - i
decreasing_by
  · have key : ∀ (l : List (List Nat × List Nat)), (∀ p ∈ l, 1 ≤ p.1.length) →
        ∀ q', lookupSub doc i e l = some q' → 1 ≤ q'.2 := by
      intro l
      induction l with
      | nil => intro _ q' hq'; simp [lookupSub] at hq'
      | cons hd tl ih =>
        obtain ⟨pat, rep⟩ := hd
        intro hl q' hq'
        simp only [lookupSub] at hq'
        by_cases hm : matchesAt pat doc i e
        · rw [if_pos hm] at hq'
          obtain rfl : (rep, pat.length) = q' := Option.some.inj hq'
          simpa using hl (pat, rep) (List.mem_cons_self _ _)
        · rw [if_neg hm] at hq'
          exact ih (fun p hp => hl p (List.mem_cons_of_mem _ hp)) q' hq'
    have h1 : 1 ≤ q.2 := key subTable (by decide) q hq
    omega
  · omega

/-- Body of `int textIndexOfSpaceCR(uint8_t*, int startPtr, int textLength)`,
indexed by fuel (the pointer moves by exactly one per step, so
`textLength - startPtr` units of fuel are exact). -/
def textIndexOfSpaceCRAux (doc : Nat → Nat) (startPtr textLength : Nat) : Nat → Option Nat
  | 0 => none
  | fuel + 1 =>
    if startPtr < textLength then
      if doc startPtr = 32 ∨ doc startPtr = 13 then some startPtr
      else textIndexOfSpaceCRAux doc (startPtr + 1) textLength fuel
    else none

/-- Embedding of `int textIndexOfSpaceCR(uint8_t*, int startPtr, int textLength)`:
index of the first space (32) or CR (13) byte at or after `startPtr` and below
`textLength`; the C sentinel `-1` becomes `none`. -/
def textIndexOfSpaceCR (doc : Nat → Nat) (startPtr textLength : Nat) : Option Nat :=
  textIndexOfSpaceCRAux doc startPtr textLength (textLength - startPtr)

/-- Embedding of `bool reachedEndOfBook(int wordStart, int textLength)`.
The arguments are C `int`s, so the comparison is over `Int` (the caller
passes `textLength - 500`, which can be negative). -/
def reachedEndOfBook (wordStart textLength : Int) : Bool :=
  decide (textLength ≤ wordStart)

/-- One iteration's token data in `getNextPage`: the new `wordEnd`
(`textIndexOfSpaceCR(textFile, startPtr + wordStart + 1, textLength) - startPtr`
with the `-1` end-of-file case mapped to `textLength - startPtr`), the
measured pixel width of the normalized token text
(`M5.Display.textWidth(textSubstring(...))`), and whether the token's first
character is CR (`text.charAt(0) == 13`). -/
def gnpToken (doc : Nat → Nat) (width : List Nat → Nat)
    (startPtr textLength ws : Nat) : Nat × Nat × Bool :=
  let wordEnd : Nat :=
    match textIndexOfSpaceCR doc (startPtr + ws + 1) textLength with
    | none => textLength - startPtr
    | some j => j - startPtr
  let text := textSubstring doc (startPtr + ws) (startPtr + wordEnd)
  (wordEnd, width text, decide (text.headD 0 = 13))

/-- Embedding of the `while` loop of
`int getNextPage(uint8_t*, int startPtr, int textLength)`.
State: `ws`/`xPos`/`yPos` are the local `wordStart`/`xPos`/`yPos`; `log` is a
ghost trace holding, for every taken wrap branch, the `xPos` at the wrap and
whether the token started with CR; `fuel` bounds the iteration count (`none`
means the fuel ran out, which the termination lemmas rule out).
On success returns the computed page boundary together with the wrap log.
`SCREEN_WIDTH - (border * 2)` and `SCREEN_HEIGHT - (border * 2) - 60` are the
local `xMax` and `yMax` of the source. -/
def getNextPageAux (doc : Nat → Nat) (width : List Nat → Nat)
    (startPtr textLength ws xPos yPos : Nat) (log : List (Nat × Bool)) (fuel : Nat) :
    Option (Nat × List (Nat × Bool)) :=
  if reachedEndOfBook ((ws : Int) + (startPtr : Int)) ((textLength : Int) - 500) then
    some (textLength, log)
  else
    match fuel with
    | 0 => none
    | fuel + 1 =>
      match gnpToken doc width startPtr textLength ws with
      | (wordEnd, w, isCR) =>
        if SCREEN_WIDTH - (border * 2) ≤ xPos + w ∨ isCR = true then
          if SCREEN_HEIGHT - (border * 2) - 60 ≤ (yPos + 22) + 90 then
            some (startPtr + ws + 1, log ++ [(xPos, isCR)])
          else
            getNextPageAux doc width startPtr textLength wordEnd (0 + w) (yPos + 22)
              (log ++ [(xPos, isCR)]) fuel
        else
          getNextPageAux doc width startPtr textLength wordEnd (xPos + w) yPos log fuel

/-- Embedding of `int getNextPage(uint8_t*, int startPtr, int textLength)`:
the loop is entered with `wordStart = xPos = yPos = 0`; `textLength` units of
fuel are enough (proved below), so `none` never occurs. -/
def getNextPage (doc : Nat → Nat) (width : List Nat → Nat)
    (startPtr textLength : Nat) : Option Nat :=
  Option.map Prod.fst (getNextPageAux doc width startPtr textLength 0 0 0 [] textLength)

/-- Ghost wrap log of one `getNextPage` call (empty if the fuel ran out). -/
def getNextPageLog (doc : Nat → Nat) (width : List Nat → Nat)
    (startPtr textLength : Nat) : List (Nat × Bool) :=
  match getNextPageAux doc width startPtr textLength 0 0 0 [] textLength with
  | some p => p.2
  | none => []

/-- Embedding of the `while` loop of
`void findPageStartStop(uint8_t*, int textLength)`.
`acc` is the list of `pages[0..pageCount-1]` entries written so far; the C
code writes into the fixed array `pages[2000]` with no bound check, so the
list simply grows — an entry at list index `≥ 2000` corresponds to an
out-of-bounds write of the source.  `none` means the fuel ran out. -/
def findPageStartStopAux (doc : Nat → Nat) (width : List Nat → Nat)
    (textLength startPtr endPtr : Nat) (acc : List aPage) (fuel : Nat) :
    Option (List aPage) :=
  if endPtr < textLength ∧ doc endPtr ≠ 0 then
    match fuel with
    | 0 => none
    | fuel + 1 =>
      match getNextPage doc width startPtr textLength with
      | none => none
      | some e =>
        if textLength ≤ startPtr then some acc
        else findPageStartStopAux doc width textLength e e (acc ++ [⟨startPtr, e⟩]) fuel
  else some acc

/-- Embedding of `void findPageStartStop(uint8_t*, int textLength)`:
builds the page table starting from `startPtr = endPtr = 0` with an empty
table; `textLength + 1` units of fuel are enough (proved below). -/
def findPageStartStop (doc : Nat → Nat) (width : List Nat → Nat)
    (textLength : Nat) : Option (List aPage) :=
  findPageStartStopAux doc width textLength 0 0 [] (textLength + 1)

/-- Number of entries written into the `pages` array by one
`findPageStartStop` run (0 if the fuel ran out, which the termination lemmas
rule out).  The source array holds 2000 entries, so a value above 2000 means
the source wrote past the end of `pages`. -/
def pageTableLength (doc : Nat → Nat) (width : List Nat → Nat) (textLength : Nat) : Nat :=
  match findPageStartStop doc width textLength with
  | some tbl => tbl.length
  | none => 0

/-- Body of `int findNextWordBreak(String&, int start)`, indexed by fuel
(the index moves by exactly one per step, so `s.length - start` units of
fuel are exact). -/
def findNextWordBreakAux (s : List Nat) (start : Nat) : Nat → Option Nat
  | 0 => none
  | fuel + 1 =>
    if start < s.length then
      if s.getD start 0 = 32 ∨ s.getD start 0 = 13 then some start
      else findNextWordBreakAux s (start + 1) fuel
    else none

/-- Embedding of `int findNextWordBreak(String&, int start)`: index of the
first space (32) or CR (13) character at or after `start` in the normalized
page text; the C sentinel `-1` becomes `none`. -/
def findNextWordBreak (s : List Nat) (start : Nat) : Option Nat :=
  findNextWordBreakAux s start (s.length - start)

/-- One word of the `displayPage` loop: the break index `wordEnd` given by
`findNextWordBreak` (the `-1` case mapped to `text.length`) and the measured
pixel width of the word `text.substring(wordStart, wordEnd)`. -/
def dispToken (width : List Nat → Nat) (text : List Nat) (ws : Nat) : Nat × Nat :=
  let wordEnd : Nat :=
    match findNextWordBreak text ws with
    | none => text.length
    | some j => j
  (wordEnd, width ((text.drop ws).take (wordEnd - ws)))

/-- Embedding of the word loop of `void displayPage(uint8_t*, aPage)` (v2):
`text` is the normalized page text, `ws` the local `wordStart`, `(x, y)` the
display cursor (`M5.Display.print` is modelled as advancing `x` by the width
of the printed text, the external draw capability of spec §6).  `wraps` is a
ghost trace of the cursor `x` at every taken word-wrap branch.  On success
returns the final cursor position and the wrap log. -/
def displayAux (width : List Nat → Nat) (text : List Nat)
    (ws x y : Nat) (wraps : List Nat) (fuel : Nat) : Option (Nat × Nat × List Nat) :=
  if ws < text.length then
    match fuel with
    | 0 => none
    | fuel + 1 =>
      if text.getD ws 0 = 32 ∨ text.getD ws 0 = 13 then
        if text.getD ws 0 = 13 then
          displayAux width text (ws + 1) border (y + 22) wraps fuel
        else
          displayAux width text (ws + 1) (x + width [32]) y wraps fuel
      else
        match dispToken width text ws with
        | (wordEnd, len) =>
          if border < x ∧ SCREEN_WIDTH - border ≤ x + len then
            displayAux width text wordEnd (border + len) (y + 22) (wraps ++ [x]) fuel
          else
            displayAux width text wordEnd (x + len) y wraps fuel
  else some (x, y, wraps)

/-- Embedding of `void displayPage(uint8_t*, aPage)` (v2): normalizes the
page's byte range, then runs the word loop from cursor
`(border, border + 20)`.  The footer drawing after the loop does not affect
the layout and is omitted. -/
def displayPageSim (doc : Nat → Nat) (width : List Nat → Nat) (page : aPage) :
    Option (Nat × Nat × List Nat) :=
  displayAux width (textSubstring doc page.start page.«end») 0 border (border + 20) []
    ((textSubstring doc page.start page.«end»).length + 1)

/-- Embedding of `void storePageSD(uint32_t c)`: the four bytes written to
the page-number file, in little-endian order (`buf[0] = c`, `buf[1] = c >> 8`,
`buf[2] = c >> 16`, `buf[3] = c >> 24`, each truncated to a byte).  On the
ESP32 SD library `FILE_WRITE` truncates, so the file content after a
successful store is exactly these four bytes. -/
def storePageSD (c : Nat) : List Nat :=
  [c % 256, c / 256 % 256, c / 65536 % 256, c / 16777216 % 256]

/-- Embedding of `uint32_t getPageSD()`: the file system is modelled as
`Option (List Nat)` (`none` = file absent).  If the file exists and holds at
least four bytes, the first four are combined little-endian (the C bitwise
or of disjoint byte fields equals this sum); otherwise `val` stays 0. -/
def getPageSD (fs : Option (List Nat)) : Nat :=
  match fs with
  | none => 0
  | some content =>
    if 4 ≤ content.length then
      content.getD 0 0 + content.getD 1 0 * 256 + content.getD 2 0 * 65536 +
        content.getD 3 0 * 16777216
    else 0

/-- A navigation touch event: left third (previous page) or right third
(next page) of the screen. -/
inductive NavEvent where
  | prev : NavEvent
  | next : NavEvent
  deriving DecidableEq, Repr

/-- Embedding of the navigation branches of `void loop()`:
previous page: `if (--currentPage < 0) currentPage = 0`;
next page: `if (++currentPage >= pageCount) currentPage = pageCount - 1`.
`currentPage` and `pageCount` are C `int`s, hence `Int`. -/
def handleNav (pageCount : Int) (currentPage : Int) (e : NavEvent) : Int :=
  match e with
  | NavEvent.prev => if currentPage - 1 < 0 then 0 else currentPage - 1
  | NavEvent.next => if pageCount ≤ currentPage + 1 then pageCount - 1 else currentPage + 1

/-- The current page after a sequence of navigation events. -/
def runNav (pageCount : Int) (currentPage : Int) (es : List NavEvent) : Int :=
  es.foldl (handleNav pageCount) currentPage

/-- Checks that a page table is a contiguous partition of `[a, b)`:
the first entry starts at `a`, each entry ends where the next begins, and the
last entry ends at `b` (for the empty table this degenerates to `a = b`).
`chainB 0 tbl L = true` is claim C1's partition property of the table. -/
def chainB : Nat → List aPage → Nat → Bool
  | a, [], b => a == b
  | a, p :: rest, b => (p.start == a) && chainB p.«end» rest b

/-- Concrete one-byte-pattern document: every byte is NUL (0). -/
def docNul : Nat → Nat := fun _ => 0

/-- Concrete document: every byte is CR (13). -/
def docCRs : Nat → Nat := fun _ => 13

/-- Concrete document: every byte is a space (32). -/
def docSpaces : Nat → Nat := fun _ => 32

/-- Concrete document: the word byte 65 at offset 0, spaces after it. -/
def docWordFirst : Nat → Nat := fun i => if i = 0 then 65 else 32

/-- Concrete document: bytes 97, 10, 98, 32 (letter, LF, letter, space). -/
def docWithLF : Nat → Nat := fun i => [97, 10, 98, 32].getD i 0

/-- Concrete document: every byte is the letter 65. -/
def docPlain : Nat → Nat := fun _ => 65

/-- Concrete width capability: every run measures 1000 pixels — wider than
one full line, the oversized-token scenario of the spec. -/
def widthBig : List Nat → Nat := fun _ => 1000

/-- Concrete width capability: every run measures 5 pixels. -/
def widthSmall : List Nat → Nat := fun _ => 5

theorem textIndexOfSpaceCR_stop (doc : Nat → Nat) (s L : Nat) (h : L ≤ s) :
    textIndexOfSpaceCR doc s L = none := by
  have h0 : L - s = 0 := by omega
  simp only [textIndexOfSpaceCR, h0, textIndexOfSpaceCRAux]

theorem textIndexOfSpaceCR_step (doc : Nat → Nat) (s L : Nat) (h : s < L) :
    textIndexOfSpaceCR doc s L =
      if doc s = 32 ∨ doc s = 13 then some s else textIndexOfSpaceCR doc (s + 1) L := by
  have h1 : L - s = (L - (s + 1)) + 1 := by omega
  simp only [textIndexOfSpaceCR, h1, textIndexOfSpaceCRAux, if_pos h]

theorem textIndexOfSpaceCR_some_iff :
    ∀ (n : Nat) (doc : Nat → Nat) (s L : Nat), L - s ≤ n → ∀ j,
      (textIndexOfSpaceCR doc s L = some j ↔
        s ≤ j ∧ j < L ∧ (doc j = 32 ∨ doc j = 13) ∧
          ∀ k, s ≤ k → k < j → doc k ≠ 32 ∧ doc k ≠ 13) := by
  intro n
  induction n with
  | zero =>
    intro doc s L h j
    rw [textIndexOfSpaceCR_stop doc s L (by omega)]
    constructor
    · intro hc; cases hc
    · rintro ⟨h1, h2, -, -⟩; omega
  | succ n ih =>
    intro doc s L h j
    by_cases hs : s < L
    · rw [textIndexOfSpaceCR_step doc s L hs]
      by_cases hhit : doc s = 32 ∨ doc s = 13
      · rw [if_pos hhit]
        constructor
        · intro hc
          obtain rfl : s = j := Option.some.inj hc
          exact ⟨le_refl _, hs, hhit, fun k hk1 hk2 => absurd hk2 (by omega)⟩
        · rintro ⟨h1, h2, h3, h4⟩
          by_cases hsj : s = j
          · rw [hsj]
          · have hk := h4 s (le_refl _) (by omega)
            rcases hhit with hh | hh
            · exact absurd hh hk.1
            · exact absurd hh hk.2
      · rw [if_neg hhit]
        rw [ih doc (s + 1) L (by omega) j]
        push_neg at hhit
        constructor
        · rintro ⟨h1, h2, h3, h4⟩
          refine ⟨by omega, h2, h3, fun k hk1 hk2 => ?_⟩
          by_cases hks : k = s
          · subst hks; exact hhit
          · exact h4 k (by omega) hk2
        · rintro ⟨h1, h2, h3, h4⟩
          have hsj : s ≠ j := by
            rintro rfl
            rcases h3 with hh | hh
            · exact hhit.1 hh
            · exact hhit.2 hh
          exact ⟨by omega, h2, h3, fun k hk1 hk2 => h4 k (by omega) hk2⟩
    · rw [textIndexOfSpaceCR_stop doc s L (by omega)]
      constructor
      · intro hc; cases hc
      · rintro ⟨h1, h2, -, -⟩; omega

theorem textIndexOfSpaceCR_none_iff :
    ∀ (n : Nat) (doc : Nat → Nat) (s L : Nat), L - s ≤ n →
      (textIndexOfSpaceCR doc s L = none ↔
        ∀ k, s ≤ k → k < L → doc k ≠ 32 ∧ doc k ≠ 13) := by
  intro n
  induction n with
  | zero =>
    intro doc s L h
    rw [textIndexOfSpaceCR_stop doc s L (by omega)]
    constructor
    · intro _ k hk1 hk2; omega
    · intro _; rfl
  | succ n ih =>
    intro doc s L h
    by_cases hs : s < L
    · rw [textIndexOfSpaceCR_step doc s L hs]
      by_cases hhit : doc s = 32 ∨ doc s = 13
      · rw [if_pos hhit]
        constructor
        · intro hc; cases hc
        · intro hall
          have hk := hall s (le_refl _) hs
          rcases hhit with hh | hh
          · exact absurd hh hk.1
          · exact absurd hh hk.2
      · rw [if_neg hhit]
        rw [ih doc (s + 1) L (by omega)]
        push_neg at hhit
        constructor
        · intro hall k hk1 hk2
          by_cases hks : k = s
          · subst hks; exact hhit
          · exact hall k (by omega) hk2
        · intro hall k hk1 hk2
          exact hall k (by omega) hk2
    · rw [textIndexOfSpaceCR_stop doc s L (by omega)]
      constructor
      · intro _ k hk1 hk2; omega
      · intro _; rfl

theorem textIndexOfSpaceCR_some_bounds (doc : Nat → Nat) (s L j : Nat)
    (h : textIndexOfSpaceCR doc s L = some j) : s ≤ j ∧ j < L :=
  have hh := (textIndexOfSpaceCR_some_iff (L - s) doc s L (le_refl _) j).mp h
  ⟨hh.1, hh.2.1⟩

theorem gnpToken_wordEnd (doc : Nat → Nat) (width : List Nat → Nat)
    (s L ws : Nat) (h : s + ws + 1 ≤ L) :
    ws + 1 ≤ (gnpToken doc width s L ws).1 ∧ (gnpToken doc width s L ws).1 ≤ L - s := by
  cases hj : textIndexOfSpaceCR doc (s + ws + 1) L with
  | none => simp only [gnpToken, hj]; omega
  | some j =>
    have hb := textIndexOfSpaceCR_some_bounds doc (s + ws + 1) L j hj
    simp only [gnpToken, hj]
    omega

theorem reachedEndOfBook_true (s ws L : Nat) (h : L ≤ s + ws + 500) :
    reachedEndOfBook ((ws : Int) + (s : Int)) ((L : Int) - 500) = true := by
  unfold reachedEndOfBook
  simp only [decide_eq_true_eq]
  omega

theorem reachedEndOfBook_false (s ws L : Nat) (h : s + ws + 500 < L) :
    reachedEndOfBook ((ws : Int) + (s : Int)) ((L : Int) - 500) = false := by
  unfold reachedEndOfBook
  simp only [decide_eq_false_iff_not]
  omega

theorem gnpAux_immediate (doc : Nat → Nat) (width : List Nat → Nat)
    (s L ws x y : Nat) (log : List (Nat × Bool)) (fuel : Nat) (h : L ≤ s + ws + 500) :
    getNextPageAux doc width s L ws x y log fuel = some (L, log) := by
  rw [getNextPageAux.eq_def, reachedEndOfBook_true s ws L h]
  simp

theorem gnpAux_fuel :
    ∀ (fuel : Nat) (doc : Nat → Nat) (width : List Nat → Nat) (s L ws x y : Nat)
      (log : List (Nat × Bool)), L ≤ s + ws + fuel →
      getNextPageAux doc width s L ws x y log fuel ≠ none := by
  intro fuel
  induction fuel with
  | zero =>
    intro doc width s L ws x y log h
    rw [gnpAux_immediate doc width s L ws x y log 0 (by omega)]
    simp
  | succ n ih =>
    intro doc width s L ws x y log h
    by_cases hcl : L ≤ s + ws + 500
    · rw [gnpAux_immediate doc width s L ws x y log (n + 1) hcl]
      simp
    · rw [getNextPageAux.eq_def, reachedEndOfBook_false s ws L (by omega)]
      simp only [Bool.false_eq_true, if_false]
      rcases hg : gnpToken doc width s L ws with ⟨we, w, cr⟩
      have hwe : ws + 1 ≤ we := by
        have hb := gnpToken_wordEnd doc width s L ws (by omega)
        rw [hg] at hb
        exact hb.1
      simp only []
      split
      · split
        · simp
        · exact ih doc width s L we (0 + w) (y + 22) (log ++ [(x, cr)]) (by omega)
      · exact ih doc width s L we (x + w) y log (by omega)

theorem gnpAux_bounds :
    ∀ (fuel : Nat) (doc : Nat → Nat) (width : List Nat → Nat) (s L ws x y : Nat)
      (log : List (Nat × Bool)) (r : Nat) (l : List (Nat × Bool)),
      getNextPageAux doc width s L ws x y log fuel = some (r, l) →
      r = L ∨ (s + ws < r ∧ r + 500 ≤ L) := by
  intro fuel
  induction fuel with
  | zero =>
    intro doc width s L ws x y log r l h
    by_cases hcl : L ≤ s + ws + 500
    · rw [gnpAux_immediate doc width s L ws x y log 0 hcl] at h
      left
      exact (Prod.mk.injEq _ _ _ _ ▸ Option.some.inj h).1.symm
    · rw [getNextPageAux.eq_def, reachedEndOfBook_false s ws L (by omega)] at h
      simp at h
  | succ n ih =>
    intro doc width s L ws x y log r l h
    by_cases hcl : L ≤ s + ws + 500
    · rw [gnpAux_immediate doc width s L ws x y log (n + 1) hcl] at h
      left
      exact (Prod.mk.injEq _ _ _ _ ▸ Option.some.inj h).1.symm
    · rw [getNextPageAux.eq_def, reachedEndOfBook_false s ws L (by omega)] at h
      simp only [Bool.false_eq_true, if_false] at h
      rcases hg : gnpToken doc width s L ws with ⟨we, w, cr⟩
      rw [hg] at h
      have hwe : ws + 1 ≤ we := by
        have hb := gnpToken_wordEnd doc width s L ws (by omega)
        rw [hg] at hb
        exact hb.1
      simp only [] at h
      split at h
      · split at h
        · right
          obtain rfl : s + ws + 1 = r := (Prod.mk.injEq _ _ _ _ ▸ Option.some.inj h).1
          omega
        · rcases ih doc width s L we (0 + w) (y + 22) (log ++ [(x, cr)]) r l h with hL | hr
          · exact Or.inl hL
          · exact Or.inr ⟨by omega, hr.2⟩
      · rcases ih doc width s L we (x + w) y log r l h with hL | hr
        · exact Or.inl hL
        · exact Or.inr ⟨by omega, hr.2⟩

theorem getNextPage_ne_none (doc : Nat → Nat) (width : List Nat → Nat) (s L : Nat) :
    getNextPage doc width s L ≠ none := by
  unfold getNextPage
  cases h : getNextPageAux doc width s L 0 0 0 [] L with
  | none => exact absurd h (gnpAux_fuel L doc width s L 0 0 0 [] (by omega))
  | some p => simp

theorem getNextPage_bounds (doc : Nat → Nat) (width : List Nat → Nat) (s L r : Nat)
    (h : getNextPage doc width s L = some r) :
    r = L ∨ (s < r ∧ r + 500 ≤ L) := by
  unfold getNextPage at h
  cases haux : getNextPageAux doc width s L 0 0 0 [] L with
  | none => rw [haux] at h; simp at h
  | some p =>
    rw [haux] at h
    rw [Option.map_some'] at h
    obtain rfl : p.1 = r := Option.some.inj h
    have := gnpAux_bounds L doc width s L 0 0 0 [] p.1 p.2 (by rw [haux])
    simpa using this

theorem getNextPage_progress (doc : Nat → Nat) (width : List Nat → Nat) (s L r : Nat)
    (hs : s < L) (h : getNextPage doc width s L = some r) : s < r ∧ r ≤ L := by
  rcases getNextPage_bounds doc width s L r h with hL | hr
  · omega
  · omega

theorem chainB_append :
    ∀ (acc : List aPage) (a s e : Nat),
      chainB a acc s = true → chainB a (acc ++ [⟨s, e⟩]) e = true := by
  intro acc
  induction acc with
  | nil =>
    intro a s e h
    simp only [chainB, beq_iff_eq] at h
    subst h
    simp [chainB]
  | cons p rest ih =>
    intro a s e h
    simp only [chainB, Bool.and_eq_true] at h
    simp only [List.cons_append, chainB, Bool.and_eq_true]
    exact ⟨h.1, ih _ _ _ h.2⟩

theorem findAux_total :
    ∀ (fuel : Nat) (doc : Nat → Nat) (width : List Nat → Nat) (L s : Nat) (acc : List aPage),
      s ≤ L → L ≤ s + fuel → (∀ p ∈ acc, p.start < p.«end») →
      ∃ tbl, findPageStartStopAux doc width L s s acc fuel = some tbl ∧
        ∀ p ∈ tbl, p.start < p.«end» := by
  intro fuel
  induction fuel with
  | zero =>
    intro doc width L s acc hsL hfuel hacc
    have hs : s = L := by omega
    rw [findPageStartStopAux.eq_def, if_neg (by omega)]
    exact ⟨acc, rfl, hacc⟩
  | succ n ih =>
    intro doc width L s acc hsL hfuel hacc
    by_cases hg : s < L ∧ doc s ≠ 0
    · rw [findPageStartStopAux.eq_def, if_pos hg]
      dsimp only
      cases hgn : getNextPage doc width s L with
      | none => exact absurd hgn (getNextPage_ne_none doc width s L)
      | some e =>
        have hpr := getNextPage_progress doc width s L e hg.1 hgn
        dsimp only
        rw [if_neg (show ¬L ≤ s by omega)]
        have hacc2 : ∀ p ∈ acc ++ [(⟨s, e⟩ : aPage)], p.start < p.«end» := by
          intro p hp
          rcases List.mem_append.mp hp with hp | hp
          · exact hacc p hp
          · rcases List.mem_singleton.mp hp with rfl
            exact hpr.1
        obtain ⟨tbl, htbl, hall⟩ :=
          ih doc width L e (acc ++ [⟨s, e⟩]) (by omega) (by omega) hacc2
        exact ⟨tbl, htbl, hall⟩
    · rw [findPageStartStopAux.eq_def, if_neg hg]
      exact ⟨acc, rfl, hacc⟩

theorem findAux_chain :
    ∀ (fuel : Nat) (doc : Nat → Nat) (width : List Nat → Nat) (L s : Nat)
      (acc tbl : List aPage),
      s ≤ L → L ≤ s + fuel → (∀ i, i < L → doc i ≠ 0) →
      chainB 0 acc s = true →
      findPageStartStopAux doc width L s s acc fuel = some tbl →
      chainB 0 tbl L = true := by
  intro fuel
  induction fuel with
  | zero =>
    intro doc width L s acc tbl hsL hfuel hnul hchain heq
    have hs : s = L := by omega
    rw [findPageStartStopAux.eq_def, if_neg (by omega)] at heq
    obtain rfl : acc = tbl := Option.some.inj heq
    rw [← hs]
    exact hchain
  | succ n ih =>
    intro doc width L s acc tbl hsL hfuel hnul hchain heq
    by_cases hg : s < L ∧ doc s ≠ 0
    · rw [findPageStartStopAux.eq_def, if_pos hg] at heq
      dsimp only at heq
      cases hgn : getNextPage doc width s L with
      | none => exact absurd hgn (getNextPage_ne_none doc width s L)
      | some e =>
        rw [hgn] at heq
        dsimp only at heq
        have hpr := getNextPage_progress doc width s L e hg.1 hgn
        rw [if_neg (show ¬L ≤ s by omega)] at heq
        exact ih doc width L e (acc ++ [⟨s, e⟩]) tbl (by omega) (by omega) hnul
          (chainB_append acc 0 s e hchain) heq
    · have hs : s = L := by
        by_cases hsl : s < L
        · exact absurd ⟨hsl, hnul s hsl⟩ hg
        · omega
      rw [findPageStartStopAux.eq_def, if_neg hg] at heq
      obtain rfl : acc = tbl := Option.some.inj heq
      rw [← hs]
      exact hchain

theorem findAux_length :
    ∀ (fuel : Nat) (doc : Nat → Nat) (width : List Nat → Nat) (L s e : Nat)
      (acc tbl : List aPage),
      findPageStartStopAux doc width L s e acc fuel = some tbl →
      acc.length ≤ tbl.length := by
  intro fuel
  induction fuel with
  | zero =>
    intro doc width L s e acc tbl heq
    rw [findPageStartStopAux.eq_def] at heq
    by_cases hg : e < L ∧ doc e ≠ 0
    · rw [if_pos hg] at heq
      dsimp only at heq
      cases heq
    · rw [if_neg hg] at heq
      obtain rfl : acc = tbl := Option.some.inj heq
      exact le_refl _
  | succ n ih =>
    intro doc width L s e acc tbl heq
    rw [findPageStartStopAux.eq_def] at heq
    by_cases hg : e < L ∧ doc e ≠ 0
    · rw [if_pos hg] at heq
      dsimp only at heq
      cases hgn : getNextPage doc width s L with
      | none => rw [hgn] at heq; cases heq
      | some e2 =>
        rw [hgn] at heq
        dsimp only at heq
        by_cases hbr : L ≤ s
        · rw [if_pos hbr] at heq
          obtain rfl : acc = tbl := Option.some.inj heq
          exact le_refl _
        · rw [if_neg hbr] at heq
          have := ih doc width L e2 e2 (acc ++ [⟨s, e2⟩]) tbl heq
          simp only [List.length_append, List.length_singleton] at this
          omega
    · rw [if_neg hg] at heq
      obtain rfl : acc = tbl := Option.some.inj heq
      exact le_refl _

theorem textSubstring_spaces_one (a : Nat) : textSubstring docSpaces a (a + 1) = [32] := by
  have h1 : a + 1 - a = 1 := by omega
  rw [textSubstring, h1]
  rw [textSubstringAux]
  rw [if_pos (by omega)]
  rw [if_neg (by simp [docSpaces])]
  rw [if_neg (by simp [docSpaces])]
  rfl

theorem gnpToken_spaces (s L ws : Nat) (h : s + ws + 1 < L) :
    gnpToken docSpaces widthBig s L ws = (ws + 1, 1000, false) := by
  have hj : textIndexOfSpaceCR docSpaces (s + ws + 1) L = some (s + ws + 1) := by
    rw [textIndexOfSpaceCR_step _ _ _ (by omega)]
    simp [docSpaces]
  simp only [gnpToken, hj]
  have h2 : s + ws + 1 - s = ws + 1 := by omega
  rw [h2]
  have h3 : s + (ws + 1) = s + ws + 1 := by omega
  rw [h3, textSubstring_spaces_one (s + ws)]
  simp [widthBig]

theorem gnpAux_spaces_step (s L ws x y : Nat) (log : List (Nat × Bool)) (n : Nat)
    (h : s + ws + 500 < L) :
    getNextPageAux docSpaces widthBig s L ws x y log (n + 1) =
      if 880 ≤ (y + 22) + 90 then some (s + ws + 1, log ++ [(x, false)])
      else getNextPageAux docSpaces widthBig s L (ws + 1) (0 + 1000) (y + 22)
        (log ++ [(x, false)]) n := by
  rw [getNextPageAux.eq_def, reachedEndOfBook_false s ws L h]
  simp only [Bool.false_eq_true, if_false]
  rw [gnpToken_spaces s L ws (by omega)]
  dsimp only
  rw [if_pos (Or.inl (by norm_num [SCREEN_WIDTH, border]))]
  norm_num [SCREEN_HEIGHT, border]

theorem gnpAux_spaces_count :
    ∀ (k s L ws x y : Nat) (log : List (Nat × Bool)) (fuel : Nat),
      1 ≤ k → k ≤ fuel → s + ws + k + 500 ≤ L →
      768 ≤ y + 22 * (k - 1) →
      (k = 1 ∨ y + 22 * (k - 2) < 768) →
      Option.map Prod.fst (getNextPageAux docSpaces widthBig s L ws x y log fuel) =
        some (s + ws + k) := by
  intro k
  induction k with
  | zero => intro s L ws x y log fuel h1 _ _ _ _; omega
  | succ k ih =>
    intro s L ws x y log fuel h1 h2 h3 h4 h5
    cases fuel with
    | zero => omega
    | succ m =>
      rw [gnpAux_spaces_step s L ws x y log m (by omega)]
      by_cases hk : k = 0
      · subst hk
        rw [if_pos (by omega)]
        simp
      · have h5a : y + 22 * (k - 1) < 768 := by
          rcases h5 with h | h
          · omega
          · omega
        rw [if_neg (by omega)]
        have hrec := ih s L (ws + 1) (0 + 1000) (y + 22) (log ++ [(x, false)]) m
          (by omega) (by omega) (by omega) (by omega)
          (by
            by_cases hk1 : k = 1
            · exact Or.inl hk1
            · right; omega)
        rw [show s + (ws + 1) + k = s + ws + (k + 1) from by omega] at hrec
        exact hrec

theorem getNextPage_spaces (s L : Nat) (h : s + 536 ≤ L) :
    getNextPage docSpaces widthBig s L = some (s + 36) := by
  unfold getNextPage
  have := gnpAux_spaces_count 36 s L 0 0 0 [] L (by omega) (by omega) (by omega)
    (by norm_num) (by norm_num)
  rw [show s + 0 + 36 = s + 36 from by omega] at this
  exact this

theorem findAux_spaces_pages :
    ∀ (n s L : Nat) (acc : List aPage) (fuel : Nat) (tbl : List aPage),
      n ≤ fuel → s + 36 * n + 500 ≤ L →
      findPageStartStopAux docSpaces widthBig L s s acc fuel = some tbl →
      acc.length + n ≤ tbl.length := by
  intro n
  induction n with
  | zero =>
    intro s L acc fuel tbl _ _ heq
    have := findAux_length fuel docSpaces widthBig L s s acc tbl heq
    omega
  | succ n ih =>
    intro s L acc fuel tbl hf hL heq
    cases fuel with
    | zero => omega
    | succ m =>
      rw [findPageStartStopAux.eq_def, if_pos ⟨by omega, by simp [docSpaces]⟩] at heq
      dsimp only at heq
      rw [getNextPage_spaces s L (by omega)] at heq
      dsimp only at heq
      rw [if_neg (show ¬L ≤ s by omega)] at heq
      have := ih (s + 36) L (acc ++ [⟨s, s + 36⟩]) m tbl (by omega) (by omega) heq
      simp only [List.length_append, List.length_singleton] at this
      omega

theorem textSubstringAux_congr :
    ∀ (f : Nat) (doc : Nat → Nat) (i e g : Nat), e - i ≤ f → e - i ≤ g →
      textSubstringAux doc i e f = textSubstringAux doc i e g := by
  intro f
  induction f with
  | zero =>
    intro doc i e g hf hg
    cases g with
    | zero => rfl
    | succ g =>
      simp only [textSubstringAux]
      rw [if_neg (show ¬i < e by omega)]
  | succ f ihf =>
    intro doc i e g hf hg
    by_cases hie : i < e
    · cases g with
      | zero => omega
      | succ g =>
        simp only [textSubstringAux]
        rw [if_pos hie, if_pos hie]
        cases hm : (if doc i = 226 ∧ i + 2 < e ∧ doc (i + 1) = 128 then
            sub3 (doc (i + 2)) else none) with
        | some rep =>
          exact congrArg (rep ++ ·) (ihf doc (i + 3) e g (by omega) (by omega))
        | none =>
          by_cases hc : doc i = 194 ∧ i + 1 < e ∧ doc (i + 1) = 169
          · rw [if_pos hc, if_pos hc]
            exact congrArg ([40, 99, 41] ++ ·) (ihf doc (i + 2) e g (by omega) (by omega))
          · rw [if_neg hc, if_neg hc]
            cases hs : sub1 (doc i) with
            | some rep =>
              exact congrArg (rep ++ ·) (ihf doc (i + 1) e g (by omega) (by omega))
            | none =>
              exact congrArg (doc i :: ·) (ihf doc (i + 1) e g (by omega) (by omega))
    · cases g with
      | zero =>
        simp only [textSubstringAux]
        rw [if_neg hie]
      | succ g =>
        simp only [textSubstringAux]
        rw [if_neg hie, if_neg hie]

theorem textSubstring_stop (doc : Nat → Nat) (i e : Nat) (h : e ≤ i) :
    textSubstring doc i e = [] := by
  rw [textSubstring, show e - i = 0 from by omega]
  rfl

theorem textSubstring_step (doc : Nat → Nat) (i e : Nat) (h : i < e) :
    textSubstring doc i e =
      match (if doc i = 226 ∧ i + 2 < e ∧ doc (i + 1) = 128 then
              sub3 (doc (i + 2)) else none) with
      | some rep => rep ++ textSubstring doc (i + 3) e
      | none =>
        if doc i = 194 ∧ i + 1 < e ∧ doc (i + 1) = 169 then
          [40, 99, 41] ++ textSubstring doc (i + 2) e
        else
          match sub1 (doc i) with
          | some rep => rep ++ textSubstring doc (i + 1) e
          | none => doc i :: textSubstring doc (i + 1) e := by
  have e3 : textSubstringAux doc (i + 3) e (e - i - 1) = textSubstring doc (i + 3) e := by
    rw [textSubstring]
    exact textSubstringAux_congr (e - i - 1) doc (i + 3) e (e - (i + 3)) (by omega) (by omega)
  have e2 : textSubstringAux doc (i + 2) e (e - i - 1) = textSubstring doc (i + 2) e := by
    rw [textSubstring]
    exact textSubstringAux_congr (e - i - 1) doc (i + 2) e (e - (i + 2)) (by omega) (by omega)
  have e1 : textSubstringAux doc (i + 1) e (e - i - 1) = textSubstring doc (i + 1) e := by
    rw [textSubstring]
    exact textSubstringAux_congr (e - i - 1) doc (i + 1) e (e - (i + 1)) (by omega) (by omega)
  conv =>
    lhs
    rw [textSubstring, show e - i = (e - i - 1) + 1 from by omega]
  simp only [textSubstringAux]
  rw [if_pos h, e3, e2, e1]

theorem normalizeSpec_stop (doc : Nat → Nat) (i e : Nat) (h : e ≤ i) :
    normalizeSpec doc i e = [] := by
  rw [normalizeSpec.eq_def]
  rw [dif_neg (show ¬i < e by omega)]

theorem normalizeSpec_step (doc : Nat → Nat) (i e : Nat) (h : i < e) :
    normalizeSpec doc i e =
      match lookupSub doc i e subTable with
      | some q => q.1 ++ normalizeSpec doc (i + q.2) e
      | none => doc i :: normalizeSpec doc (i + 1) e := by
  rw [normalizeSpec.eq_def]
  rw [dif_pos h]
  cases hq : lookupSub doc i e subTable with
  | some q => rfl
  | none => rfl

theorem lookupSub_three (doc : Nat → Nat) (i e : Nat) (h2 : i + 2 < e)
    (hb1 : doc i = 226) (hb2 : doc (i + 1) = 128) :
    lookupSub doc i e subTable = Option.map (fun rep => (rep, 3)) (sub3 (doc (i + 2))) := by
  have hi : i < e := by omega
  have hi1 : i + 1 < e := by omega
  by_cases e152 : doc (i + 2) = 152
  · simp [subTable, lookupSub, matchesAt, hb1, hb2, hi, hi1, h2, e152, sub3]
  by_cases e153 : doc (i + 2) = 153
  · simp [subTable, lookupSub, matchesAt, hb1, hb2, hi, hi1, h2, e152, e153, sub3]
  by_cases e178 : doc (i + 2) = 178
  · simp [subTable, lookupSub, matchesAt, hb1, hb2, hi, hi1, h2, e152, e153, e178, sub3]
  by_cases e156 : doc (i + 2) = 156
  · simp [subTable, lookupSub, matchesAt, hb1, hb2, hi, hi1, h2, e152, e153, e178, e156, sub3]
  by_cases e157 : doc (i + 2) = 157
  · simp [subTable, lookupSub, matchesAt, hb1, hb2, hi, hi1, h2, e152, e153, e178, e156, e157,
      sub3]
  by_cases e148 : doc (i + 2) = 148
  · simp [subTable, lookupSub, matchesAt, hb1, hb2, hi, hi1, h2, e152, e153, e178, e156, e157,
      e148, sub3]
  by_cases e166 : doc (i + 2) = 166
  · simp [subTable, lookupSub, matchesAt, hb1, hb2, hi, hi1, h2, e152, e153, e178, e156, e157,
      e148, e166, sub3]
  by_cases e162 : doc (i + 2) = 162
  · simp [subTable, lookupSub, matchesAt, hb1, hb2, hi, hi1, h2, e152, e153, e178, e156, e157,
      e148, e166, e162, sub3]
  · simp [subTable, lookupSub, matchesAt, hb1, hb2, hi, hi1, h2, e152, e153, e178, e156, e157,
      e148, e166, e162, sub3]

theorem lookupSub_copyright (doc : Nat → Nat) (i e : Nat) (h1 : i + 1 < e)
    (hb1 : doc i = 194) (hb2 : doc (i + 1) = 169) :
    lookupSub doc i e subTable = some ([40, 99, 41], 2) := by
  have hi : i < e := by omega
  simp [subTable, lookupSub, matchesAt, hb1, hb2, hi, h1]

theorem lookupSub_e2_fail (doc : Nat → Nat) (i e : Nat) (hi : i < e)
    (hb1 : doc i = 226) (hfail : ¬(i + 2 < e ∧ doc (i + 1) = 128)) :
    lookupSub doc i e subTable = none := by
  by_cases hr : i + 2 < e
  · have hb2 : doc (i + 1) ≠ 128 := fun hc => hfail ⟨hr, hc⟩
    simp [subTable, lookupSub, matchesAt, hb1, hb2, hi, hr]
  · simp [subTable, lookupSub, matchesAt, hb1, hi, hr]

theorem lookupSub_c2_fail (doc : Nat → Nat) (i e : Nat) (hi : i < e)
    (hb1 : doc i = 194) (hfail : ¬(i + 1 < e ∧ doc (i + 1) = 169)) :
    lookupSub doc i e subTable = none := by
  by_cases hr : i + 1 < e
  · have hb2 : doc (i + 1) ≠ 169 := fun hc => hfail ⟨hr, hc⟩
    simp [subTable, lookupSub, matchesAt, hb1, hb2, hi, hr]
  · simp [subTable, lookupSub, matchesAt, hb1, hi, hr]

theorem lookupSub_single (doc : Nat → Nat) (i e : Nat) (hi : i < e)
    (h226 : doc i ≠ 226) (h194 : doc i ≠ 194) :
    lookupSub doc i e subTable = Option.map (fun rep => (rep, 1)) (sub1 (doc i)) := by
  by_cases e145 : doc i = 145
  · simp [subTable, lookupSub, matchesAt, sub1, hi, e145]
  by_cases e146 : doc i = 146
  · simp [subTable, lookupSub, matchesAt, sub1, hi, e145, e146]
  by_cases e147 : doc i = 147
  · simp [subTable, lookupSub, matchesAt, sub1, hi, e145, e146, e147]
  by_cases e148 : doc i = 148
  · simp [subTable, lookupSub, matchesAt, sub1, hi, e145, e146, e147, e148]
  by_cases e151 : doc i = 151
  · simp [subTable, lookupSub, matchesAt, sub1, hi, e145, e146, e147, e148, e151]
  by_cases e133 : doc i = 133
  · simp [subTable, lookupSub, matchesAt, sub1, hi, e145, e146, e147, e148, e151, e133]
  by_cases e149 : doc i = 149
  · simp [subTable, lookupSub, matchesAt, sub1, hi, e145, e146, e147, e148, e151, e133, e149]
  by_cases e169 : doc i = 169
  · simp [subTable, lookupSub, matchesAt, sub1, hi, e145, e146, e147, e148, e151, e133, e149,
      e169]
  · simp [subTable, lookupSub, matchesAt, sub1, hi, h226, h194, e145, e146, e147, e148, e151,
      e133, e149, e169]

theorem sub1_226 : sub1 226 = none := by decide

theorem sub1_194 : sub1 194 = none := by decide

theorem textSubstring_eq_normalizeSpec_aux :
    ∀ (n : Nat) (doc : Nat → Nat) (i e : Nat), e - i ≤ n →
      textSubstring doc i e = normalizeSpec doc i e := by
  intro n
  induction n with
  | zero =>
    intro doc i e h
    rw [textSubstring_stop doc i e (by omega), normalizeSpec_stop doc i e (by omega)]
  | succ n ih =>
    intro doc i e h
    by_cases hie : i < e
    · rw [textSubstring_step doc i e hie, normalizeSpec_step doc i e hie]
      by_cases h3 : doc i = 226 ∧ i + 2 < e ∧ doc (i + 1) = 128
      · rw [if_pos h3, lookupSub_three doc i e h3.2.1 h3.1 h3.2.2]
        cases hs3 : sub3 (doc (i + 2)) with
        | some rep =>
          dsimp only [Option.map]
          exact congrArg (rep ++ ·) (ih doc (i + 3) e (by omega))
        | none =>
          dsimp only [Option.map]
          rw [if_neg (show ¬(doc i = 194 ∧ i + 1 < e ∧ doc (i + 1) = 169) by
            rintro ⟨hc, -, -⟩; rw [h3.1] at hc; cases hc)]
          rw [h3.1, sub1_226]
          exact congrArg (226 :: ·) (ih doc (i + 1) e (by omega))
      · rw [if_neg h3]
        by_cases h2 : doc i = 194 ∧ i + 1 < e ∧ doc (i + 1) = 169
        · rw [if_pos h2, lookupSub_copyright doc i e h2.2.1 h2.1 h2.2.2]
          exact congrArg ([40, 99, 41] ++ ·) (ih doc (i + 2) e (by omega))
        · rw [if_neg h2]
          by_cases h226 : doc i = 226
          · rw [lookupSub_e2_fail doc i e hie h226 (fun hc => h3 ⟨h226, hc⟩)]
            rw [h226, sub1_226]
            exact congrArg (226 :: ·) (ih doc (i + 1) e (by omega))
          · by_cases h194 : doc i = 194
            · rw [lookupSub_c2_fail doc i e hie h194 (fun hc => h2 ⟨h194, hc⟩)]
              rw [h194, sub1_194]
              exact congrArg (194 :: ·) (ih doc (i + 1) e (by omega))
            · rw [lookupSub_single doc i e hie h226 h194]
              cases hs1 : sub1 (doc i) with
              | some rep =>
                dsimp only [Option.map]
                exact congrArg (rep ++ ·) (ih doc (i + 1) e (by omega))
              | none =>
                dsimp only [Option.map]
                exact congrArg (doc i :: ·) (ih doc (i + 1) e (by omega))
    · rw [textSubstring_stop doc i e (by omega), normalizeSpec_stop doc i e (by omega)]

theorem pageTableLength_ge (n L : Nat) (hn : 36 * n + 500 ≤ L) :
    n ≤ pageTableLength docSpaces widthBig L := by
  obtain ⟨tbl, htbl, -⟩ := findAux_total (L + 1) docSpaces widthBig L 0 []
    (by omega) (by omega) (fun p hp => absurd hp (List.not_mem_nil p))
  have hlen := findAux_spaces_pages n 0 L [] (L + 1) tbl (by omega) (by omega) htbl
  unfold pageTableLength findPageStartStop
  rw [htbl]
  dsimp only
  omega

theorem displayAux_wraps :
    ∀ (fuel : Nat) (width : List Nat → Nat) (text : List Nat) (ws x y : Nat)
      (wraps : List Nat) (r : Nat × Nat × List Nat),
      displayAux width text ws x y wraps fuel = some r →
      (∀ z ∈ wraps, border < z) → ∀ z ∈ r.2.2, border < z := by
  intro fuel
  induction fuel with
  | zero =>
    intro width text ws x y wraps r heq hw
    rw [displayAux.eq_def] at heq
    by_cases hlt : ws < text.length
    · rw [if_pos hlt] at heq
      cases heq
    · rw [if_neg hlt] at heq
      obtain rfl : (x, y, wraps) = r := Option.some.inj heq
      exact hw
  | succ n ih =>
    intro width text ws x y wraps r heq hw
    rw [displayAux.eq_def] at heq
    by_cases hlt : ws < text.length
    · rw [if_pos hlt] at heq
      dsimp only at heq
      by_cases hc : text.getD ws 0 = 32 ∨ text.getD ws 0 = 13
      · rw [if_pos hc] at heq
        by_cases hcr : text.getD ws 0 = 13
        · rw [if_pos hcr] at heq
          exact ih width text (ws + 1) border (y + 22) wraps r heq hw
        · rw [if_neg hcr] at heq
          exact ih width text (ws + 1) (x + width [32]) y wraps r heq hw
      · rw [if_neg hc] at heq
        rcases hdt : dispToken width text ws with ⟨we, len⟩
        rw [hdt] at heq
        dsimp only at heq
        by_cases hwrap : border < x ∧ SCREEN_WIDTH - border ≤ x + len
        · rw [if_pos hwrap] at heq
          refine ih width text we (border + len) (y + 22) (wraps ++ [x]) r heq ?_
          intro z hz
          rcases List.mem_append.mp hz with hz | hz
          · exact hw z hz
          · rcases List.mem_singleton.mp hz with rfl
            exact hwrap.1
        · rw [if_neg hwrap] at heq
          exact ih width text we (x + len) y wraps r heq hw
    · rw [if_neg hlt] at heq
      obtain rfl : (x, y, wraps) = r := Option.some.inj heq
      exact hw

theorem handleNav_bounds (pc cp : Int) (e : NavEvent) (h1 : 1 ≤ pc)
    (h2 : 0 ≤ cp) (h3 : cp < pc) :
    0 ≤ handleNav pc cp e ∧ handleNav pc cp e < pc := by
  cases e with
  | prev => simp only [handleNav]; split <;> omega
  | next => simp only [handleNav]; split <;> omega

theorem runNav_bounds (pc : Int) (h1 : 1 ≤ pc) :
    ∀ (es : List NavEvent) (cp : Int), 0 ≤ cp → cp < pc →
      0 ≤ runNav pc cp es ∧ runNav pc cp es < pc := by
  intro es
  induction es with
  | nil => intro cp h2 h3; exact ⟨h2, h3⟩
  | cons e rest ih =>
    intro cp h2 h3
    have hstep := handleNav_bounds pc cp e h1 h2 h3
    exact ih (handleNav pc cp e) hstep.1 hstep.2

/-- C1 (counterexample): the partition claim fails as stated — for the
one-byte document holding a NUL byte, `findPageStartStop` exits before
storing any page (its loop also tests `textFile[endPtr] != 0`), so the
resulting table is empty and is not a contiguous partition of `[0, 1)`. -/
theorem C1_partition_counterexample :
    findPageStartStop docNul widthSmall 1 = some [] ∧ chainB 0 [] 1 = false :=
  ⟨by decide, by decide⟩

/-- C1 (amended): for every document with no NUL byte (and any width
capability), pagination terminates and the produced page table is a
contiguous partition of the document: the first page starts at 0, each
page ends where the next begins, and the last page ends at the document
length (`chainB 0 tbl L`). -/
theorem C1_partition_of_no_nul :
    ∀ (doc : Nat → Nat) (width : List Nat → Nat) (L : Nat),
      (∀ i, i < L → doc i ≠ 0) →
      findPageStartStop doc width L ≠ none ∧
      (∀ tbl, findPageStartStop doc width L = some tbl → chainB 0 tbl L = true) := by
  intro doc width L hnul
  obtain ⟨tbl0, htbl0, -⟩ := findAux_total (L + 1) doc width L 0 [] (by omega) (by omega)
    (fun p hp => absurd hp (List.not_mem_nil p))
  constructor
  · unfold findPageStartStop
    rw [htbl0]
    simp
  · intro tbl htbl
    unfold findPageStartStop at htbl
    exact findAux_chain (L + 1) doc width L 0 [] tbl (by omega) (by omega) hnul (by decide) htbl

/-- C1 witness: the amended theorem applied to a concrete NUL-free document
of length 10, whose page table is the single page `[0, 10)`. -/
theorem C1_partition_of_no_nul_witness : chainB 0 [⟨0, 10⟩] 10 = true :=
  (C1_partition_of_no_nul docPlain widthSmall 10 (fun i _ => by simp [docPlain])).2
    [⟨0, 10⟩] (by decide)

/-- C2 (confirmed): for every document and width capability, one
boundary-detection call terminates (never runs out of the `textLength` fuel),
a call whose start is strictly below the document length returns a strictly
larger boundary not exceeding the length, pagination as a whole terminates,
and every page stored in the table has `start < end` (byte length at least
one). -/
theorem C2_progress_and_termination :
    ∀ (doc : Nat → Nat) (width : List Nat → Nat) (L s : Nat),
      getNextPage doc width s L ≠ none ∧
      (∀ r, getNextPage doc width s L = some r → s < L → s < r ∧ r ≤ L) ∧
      findPageStartStop doc width L ≠ none ∧
      (∀ tbl, findPageStartStop doc width L = some tbl →
        ∀ p ∈ tbl, p.start < p.«end») := by
  intro doc width L s
  obtain ⟨tbl0, htbl0, hall0⟩ := findAux_total (L + 1) doc width L 0 [] (by omega) (by omega)
    (fun p hp => absurd hp (List.not_mem_nil p))
  refine ⟨getNextPage_ne_none doc width s L, ?_, ?_, ?_⟩
  · intro r hr hs
    exact getNextPage_progress doc width s L r hs hr
  · unfold findPageStartStop
    rw [htbl0]
    simp
  · intro tbl htbl p hp
    unfold findPageStartStop at htbl
    rw [htbl0] at htbl
    obtain rfl : tbl0 = tbl := Option.some.inj htbl
    exact hall0 p hp

/-- C2 witness: the theorem applied to a concrete 10-byte document at start
position 3: the boundary is 10, strictly above 3, and the single stored page
`[0, 10)` has positive length. -/
theorem C2_progress_and_termination_witness :
    ((3 : Nat) < 10 ∧ (10 : Nat) ≤ 10) ∧
      (⟨0, 10⟩ : aPage).start < (⟨0, 10⟩ : aPage).«end» := by
  have h := C2_progress_and_termination docPlain widthSmall 10 3
  exact ⟨h.2.1 10 (by decide) (by decide), h.2.2.2 [⟨0, 10⟩] (by decide) ⟨0, 10⟩ (by decide)⟩

/-- C3 (code_bug evidence): measurement and rendering do not make identical
wrap decisions, and the render cursor is not bounded.  For the 60-byte
document of CR bytes, pagination stores the single page `[0, 60)` after zero
wrap decisions (60 is below the 500-byte window, so no token is ever
classified), while the render pass advances the cursor once per CR to a
final y of 1350 — beyond even the full screen height plus a half line
height, because `displayPage` has no vertical bound check at all. -/
theorem C3_render_exceeds_vertical_bound :
    findPageStartStop docCRs widthSmall 60 = some [⟨0, 60⟩] ∧
    getNextPageLog docCRs widthSmall 0 60 = [] ∧
    (displayPageSim docCRs widthSmall ⟨0, 60⟩).map (fun r => r.2.1) = some 1350 ∧
    SCREEN_HEIGHT + 11 < 1350 :=
  ⟨by decide, by decide, by decide, by decide⟩

/-- C4 (code_bug evidence): `findPageStartStop` has no bound check against
the 2000-entry `pages` array.  For a 72537-byte all-space document and an
oversized width capability every page is 36 bytes long, so pagination stores
more than 2000 entries — the source writes `pages[2000]` and beyond, past
the end of the array, and nothing is reported. -/
theorem C4_page_table_exceeds_capacity :
    2000 < pageTableLength docSpaces widthBig 72537 := by
  have h := pageTableLength_ge 2001 72537 (by omega)
  omega

/-- C5 (confirmed): the source normalizer `textSubstring` agrees everywhere
with the declarative table-driven normalizer `normalizeSpec` built from the
claim's substitution table: each table byte sequence (matched in priority
order, entirely inside the range) maps to exactly its documented replacement
advancing past all matched bytes, and every other byte — including raw CR
and LF — passes through unchanged as a single character. -/
theorem C5_normalization_matches_table :
    ∀ (doc : Nat → Nat) (i e : Nat), textSubstring doc i e = normalizeSpec doc i e :=
  fun doc i e => textSubstring_eq_normalizeSpec_aux (e - i) doc i e (le_refl _)

/-- C6 (counterexample): in measure mode a word at the left margin is
wrapped.  For the document whose first byte is a word byte followed by
spaces and an oversized width capability, the first wrap recorded by
`getNextPage` happens at cursor x = 0 on a non-CR token — refuting the
claim that a wrap before a word occurs only when the cursor is strictly
past the left margin. -/
theorem C6_wrap_at_margin_counterexample :
    ¬(∀ p ∈ getNextPageLog docWordFirst widthBig 0 600, p.2 = false → 0 < p.1) := by
  decide

/-- C6 (amended): the left-margin guard exists only in render mode —
every word-wrap recorded by `displayPage` happens with the cursor strictly
past `border` (the guard is part of its wrap condition) — while measure
mode (`getNextPage`) has no such guard; forward progress within one
boundary-detection call nevertheless holds for any width capability,
including oversized words. -/
theorem C6_render_guard_and_progress :
    (∀ (width : List Nat → Nat) (text : List Nat) (ws x y : Nat) (wraps : List Nat)
      (fuel : Nat) (r : Nat × Nat × List Nat),
      displayAux width text ws x y wraps fuel = some r →
      (∀ z ∈ wraps, border < z) → ∀ z ∈ r.2.2, border < z) ∧
    (∀ (doc : Nat → Nat) (width : List Nat → Nat) (s L : Nat), s < L →
      getNextPage doc width s L ≠ none ∧
      ∀ r, getNextPage doc width s L = some r → s < r) := by
  constructor
  · exact fun width text ws x y wraps fuel r heq hw =>
      displayAux_wraps fuel width text ws x y wraps r heq hw
  · intro doc width s L hs
    exact ⟨getNextPage_ne_none doc width s L,
      fun r hr => (getNextPage_progress doc width s L r hs hr).1⟩

/-- C6 witness: the render half applied to a concrete three-token text whose
second word wraps at cursor x = 2010 (strictly past the margin), and the
progress half applied to a concrete oversized-start call. -/
theorem C6_render_guard_and_progress_witness :
    (10 : Nat) < 2010 ∧ (3 : Nat) < 10 := by
  constructor
  · have ha := C6_render_guard_and_progress.1 widthBig [65, 32, 66] 0 10 30 [] 4
      (1010, 52, [2010]) (by decide) (fun z hz => absurd hz (List.not_mem_nil z))
    exact ha 2010 (by decide)
  · exact (C6_render_guard_and_progress.2 docPlain widthSmall 3 10 (by decide)).2
      10 (by decide)

/-- C7 (counterexample): word tokens do not stop at LF.  In the document
`97, 10, 98, 32` the separator scan from position 1 (the scan used to end
the token starting at 0) returns 3 — the space — even though position 1
holds an LF, so the token range `[0, 3)` contains an LF byte, refuting the
claim that a word extends only to the first space, CR, or LF. -/
theorem C7_word_contains_LF_counterexample :
    textIndexOfSpaceCR docWithLF 1 4 = some 3 ∧ docWithLF 1 = 10 ∧
      ¬(∀ k, k < 3 → docWithLF k ≠ 10) :=
  ⟨by decide, by decide, by decide⟩

/-- C7 (amended): the tokenizer's only separators are space (32) and CR
(13); `textIndexOfSpaceCR doc s L` returns exactly the first position at or
after `s` and below `L` holding a space or CR — LF is not a separator and
receives no special treatment, so token ranges may contain LF bytes — and
returns the `-1` sentinel (`none`) exactly when no space or CR occurs in
`[s, L)`. -/
theorem C7_separator_characterization :
    ∀ (doc : Nat → Nat) (s L : Nat),
      (∀ j, textIndexOfSpaceCR doc s L = some j ↔
        s ≤ j ∧ j < L ∧ (doc j = 32 ∨ doc j = 13) ∧
          ∀ k, s ≤ k → k < j → doc k ≠ 32 ∧ doc k ≠ 13) ∧
      (textIndexOfSpaceCR doc s L = none ↔
        ∀ k, s ≤ k → k < L → doc k ≠ 32 ∧ doc k ≠ 13) :=
  fun doc s L =>
    ⟨fun j => textIndexOfSpaceCR_some_iff (L - s) doc s L (le_refl _) j,
     textIndexOfSpaceCR_none_iff (L - s) doc s L (le_refl _)⟩

/-- C7 witness: the characterization applied to the concrete document
`97, 10, 98, 32` — position 3 is the first separator at or after 1. -/
theorem C7_separator_characterization_witness :
    textIndexOfSpaceCR docWithLF 1 4 = some 3 := by
  refine ((C7_separator_characterization docWithLF 1 4).1 3).mpr
    ⟨by decide, by decide, by decide, ?_⟩
  intro k h1 h2
  have hk : k = 1 ∨ k = 2 := by omega
  rcases hk with rfl | rfl
  · exact ⟨by decide, by decide⟩
  · exact ⟨by decide, by decide⟩

/-- C8 (confirmed): the persisted page index round-trips — storing `n`
writes its four little-endian bytes and reloading with no intervening
modification yields `n` for every `n` below `2^32` — and an absent file or
a file shorter than four bytes loads as 0. -/
theorem C8_page_index_roundtrip :
    ∀ (n : Nat),
      (n < 4294967296 → getPageSD (some (storePageSD n)) = n) ∧
      getPageSD none = 0 ∧
      (∀ bs : List Nat, bs.length < 4 → getPageSD (some bs) = 0) := by
  intro n
  refine ⟨?_, rfl, ?_⟩
  · intro hn
    simp only [storePageSD, getPageSD]
    rw [if_pos (by simp)]
    simp only [List.getD_cons_zero, List.getD_cons_succ]
    omega
  · intro bs hbs
    simp only [getPageSD]
    rw [if_neg (by omega)]

/-- C8 witness: round-trip at 42 and a two-byte short read loading as 0. -/
theorem C8_page_index_roundtrip_witness :
    getPageSD (some (storePageSD 42)) = 42 ∧ getPageSD (some [7, 7]) = 0 :=
  ⟨(C8_page_index_roundtrip 42).1 (by norm_num),
   (C8_page_index_roundtrip 0).2.2 [7, 7] (by decide)⟩

/-- C9 (counterexample): the claim fails when `pageCount = 0` (an empty
book): a next-page event at page 0 sets `currentPage` to
`pageCount - 1 = -1`, which is not a valid index — no value lies in the
empty interval `[0, pageCount - 1]`. -/
theorem C9_empty_book_counterexample :
    handleNav 0 0 NavEvent.next = -1 ∧ ¬(0 ≤ handleNav 0 0 NavEvent.next) :=
  ⟨by decide, by decide⟩

/-- C9 (amended): whenever `pageCount ≥ 1` and the starting index lies in
`[0, pageCount - 1]`, the index after any sequence of navigation events
stays in `[0, pageCount - 1]`; a previous-page request at page 0 leaves the
index at 0 and a next-page request at the last page leaves it at
`pageCount - 1`. -/
theorem C9_nav_clamped :
    ∀ (pageCount currentPage : Int) (es : List NavEvent),
      1 ≤ pageCount → 0 ≤ currentPage → currentPage < pageCount →
      (0 ≤ runNav pageCount currentPage es ∧
        runNav pageCount currentPage es < pageCount) ∧
      handleNav pageCount 0 NavEvent.prev = 0 ∧
      handleNav pageCount (pageCount - 1) NavEvent.next = pageCount - 1 := by
  intro pc cp es h1 h2 h3
  refine ⟨runNav_bounds pc h1 es cp h2 h3, ?_, ?_⟩
  · simp only [handleNav]
    rw [if_pos (by omega)]
  · simp only [handleNav]
    rw [if_pos (by omega)]

/-- C9 witness: a two-page book driven by next, next, previous from page 0,
plus both boundary behaviors. -/
theorem C9_nav_clamped_witness :
    (0 ≤ runNav 2 0 [NavEvent.next, NavEvent.next, NavEvent.prev] ∧
      runNav 2 0 [NavEvent.next, NavEvent.next, NavEvent.prev] < 2) ∧
    handleNav 2 0 NavEvent.prev = 0 ∧
    handleNav 2 (2 - 1) NavEvent.next = 2 - 1 :=
  C9_nav_clamped 2 0 [NavEvent.next, NavEvent.next, NavEvent.prev]
    (by decide) (by decide) (by decide)

/-- C10 (confirmed): boundary detection compares the scan position against
`textLength - 500`, not `textLength`: the loop returns `textLength` as soon
as the absolute position reaches `textLength - 500` (before classifying the
next token — the first conjunct holds at every loop state, for any fuel),
in particular a call starting at or beyond `textLength - 500` returns
`textLength` immediately, and every returned boundary other than
`textLength` keeps at least 500 bytes below the length — so the final
up-to-500 bytes always fall into the last page without being measured
against the line-width or vertical bounds. -/
theorem C10_tail_window :
    ∀ (doc : Nat → Nat) (width : List Nat → Nat) (s L : Nat),
      (∀ (ws x y : Nat) (log : List (Nat × Bool)) (fuel : Nat), L ≤ s + ws + 500 →
        getNextPageAux doc width s L ws x y log fuel = some (L, log)) ∧
      (L ≤ s + 500 → getNextPage doc width s L = some L) ∧
      (∀ r, getNextPage doc width s L = some r → r = L ∨ r + 500 ≤ L) := by
  intro doc width s L
  refine ⟨fun ws x y log fuel hh => gnpAux_immediate doc width s L ws x y log fuel hh,
    ?_, ?_⟩
  · intro hh
    unfold getNextPage
    rw [gnpAux_immediate doc width s L 0 0 0 [] L (by omega)]
    rfl
  · intro r hr
    rcases getNextPage_bounds doc width s L r hr with hc | hc
    · exact Or.inl hc
    · exact Or.inr hc.2

/-- C10 witness: a call starting at 3 in a 10-byte document is inside the
500-byte window and returns the document length at once. -/
theorem C10_tail_window_witness :
    getNextPage docPlain widthSmall 3 10 = some 10 :=
  (C10_tail_window docPlain widthSmall 3 10).2.1 (by omega)
